import Mathlib

/-!
Verification development for `etl::intrusive_avl_tree`
(`src/include/etl/intrusive_avl_tree.h`).

The C++ container stores, per node (`link_type`), a parent pointer, two
child pointers (`etl_left` / `etl_right`) and a stored balance factor
`etl_bf : int8_t`.  A tree instance owns a sentinel link `origin` whose
`etl_left` slot holds the root; `origin.etl_parent` is always null and that
is what `is_origin()` tests.

Shallow embedding used here:

* the structure reachable from `origin.etl_left` is modelled as an inductive
  binary `Tree` (value + stored balance factor per node);
* a link pointer *into* a well-formed tree (parent pointers consistent with
  the child pointers) is modelled as a zipper position `Pos`: either the
  sentinel `Pos.origin t` (holding the whole tree, i.e. `origin.etl_left`),
  or `Pos.focus cs l v b r`, a focused node `node l v b r` together with the
  list `cs` of crumbs recording, innermost first, for each ancestor whether
  the focus lies in its right subtree (`fromRight`), the ancestor's value,
  stored balance factor, and its other subtree.  `get_parent()` pops a
  crumb; `is_child(is_right)` reads the head crumb's `fromRight` (and for
  the root, whose crumb list is empty, the parent is the sentinel whose left
  child is the root — exactly as in the C++ code);
* machine `int` comparator results are modelled as `Int` (only the sign is
  ever inspected, so overflow is irrelevant); the `int8_t` balance factor is
  modelled as `Int`;
* the caller-supplied factory either produces a value or declines, i.e. an
  `Option α`; a produced value is a freshly linked node: per `link_type`'s
  constructor its children are null and its stored balance factor is `0`.
-/

namespace EtlAvl

/-- The linked structure hanging off a link: `etl_left`, the value owning the
link, the stored balance factor `etl_bf`, and `etl_right`.  `nil` is a null
child pointer. -/
inductive Tree (α : Type) where
  | nil : Tree α
  | node (l : Tree α) (v : α) (bf : Int) (r : Tree α)
deriving DecidableEq, Repr

/-- Number of nodes reachable from a link (the C++ code maintains no such
counter; this is the mathematical count used in statements). -/
def Tree.size {α : Type} : Tree α → Nat
  | Tree.nil => 0
  | Tree.node l _ _ r => l.size + r.size + 1

/-- Height of the linked structure: 0 for a null pointer. -/
def Tree.height {α : Type} : Tree α → Nat
  | Tree.nil => 0
  | Tree.node l _ _ r => 1 + max l.height r.height

/-- In-order sequence of the values reachable from a link. -/
def inorder {α : Type} : Tree α → List α
  | Tree.nil => []
  | Tree.node l v _ r => inorder l ++ v :: inorder r

/-- One step of parent information for a focused node: whether the focus is
the `fromRight` child of its parent, the parent's value and stored balance
factor, and the parent's other subtree. -/
structure Crumb (α : Type) where
  fromRight : Bool
  v : α
  bf : Int
  other : Tree α
deriving DecidableEq, Repr

/-- A link pointer into a well-formed tree: the sentinel (`origin`, whose
left child is the whole tree) or a focused node with its ancestor crumbs. -/
inductive Pos (α : Type) where
  | origin (t : Tree α)
  | focus (cs : List (Crumb α)) (l : Tree α) (v : α) (bf : Int) (r : Tree α)
deriving DecidableEq, Repr

/-- `intrusive_avl_tree_base::find_extremum_impl`: from a non-null `curr`
(fields `l , v , b , r`, ancestors `cs`), repeatedly step into the
`is_max` child while it is non-null. -/
def find_extremum_impl {α : Type} (isMax : Bool) (cs : List (Crumb α))
    (l : Tree α) (v : α) (b : Int) (r : Tree α) : Pos α :=
  if isMax then
    match r with
    | Tree.nil => Pos.focus cs l v b Tree.nil
    | Tree.node rl rv rb rr =>
      find_extremum_impl isMax (⟨true, v, b, l⟩ :: cs) rl rv rb rr
  else
    match l with
    | Tree.nil => Pos.focus cs Tree.nil v b r
    | Tree.node ll lv lb lr =>
      find_extremum_impl isMax (⟨false, v, b, r⟩ :: cs) ll lv lb lr
termination_by l.size + r.size
decreasing_by
  all_goals simp [Tree.size]
  all_goals omega

/-- The climbing loop of `next_in_order_impl`:
`while (curr->is_child(true)) curr = curr->get_parent(); return
curr->get_parent();`.  `t` is the subtree rooted at `curr`; popping a crumb
reassembles the parent node.  When the crumbs run out, `curr` is the root:
it is not a right child (the sentinel's right slot is null), and its parent
is the sentinel. -/
def climb_while_right {α : Type} : List (Crumb α) → Tree α → Pos α
  | ⟨true, v, b, other⟩ :: rest, t => climb_while_right rest (Tree.node other v b t)
  | ⟨false, v, b, other⟩ :: rest, t => Pos.focus rest t v b other
  | [], t => Pos.origin t

/-- `intrusive_avl_tree_base::next_in_order_impl` on a non-null link (the
null case is handled by `next_in_order_opt` below, mirroring the
`ETL_NULLPTR == curr` test): the sentinel maps to itself; a node with a
right child maps to the minimum of that right subtree; otherwise climb while
the node is a right child and return the parent. -/
def next_in_order_impl {α : Type} : Pos α → Pos α
  | Pos.origin t => Pos.origin t
  | Pos.focus cs l v b (Tree.node rl rv rb rr) =>
    find_extremum_impl false (⟨true, v, b, l⟩ :: cs) rl rv rb rr
  | Pos.focus cs l v b Tree.nil => climb_while_right cs (Tree.node l v b Tree.nil)

/-- The climbing loop of `prev_in_order_impl`:
`while (curr->is_child(false)) curr = curr->get_parent(); return
curr->is_origin() ? curr : curr->get_parent();`.  The root *is* the left
child of the sentinel, so with the crumbs exhausted the loop steps once more
to the sentinel, which then returns itself (`is_origin`). -/
def climb_while_left {α : Type} : List (Crumb α) → Tree α → Pos α
  | ⟨false, v, b, other⟩ :: rest, t => climb_while_left rest (Tree.node t v b other)
  | ⟨true, v, b, other⟩ :: rest, t => Pos.focus rest other v b t
  | [], t => Pos.origin t

/-- `intrusive_avl_tree_base::prev_in_order_impl` on a non-null link (null
case in `prev_in_order_opt`): no `is_origin` early-out here — from the
sentinel, its left child is the root, so a non-empty tree yields the maximum
of the whole tree; otherwise descend into the left child's maximum or climb
while the node is a left child. -/
def prev_in_order_impl {α : Type} : Pos α → Pos α
  | Pos.origin (Tree.node l v b r) => find_extremum_impl true [] l v b r
  | Pos.origin Tree.nil => Pos.origin Tree.nil
  | Pos.focus cs (Tree.node ll lv lb lr) v b r =>
    find_extremum_impl true (⟨false, v, b, r⟩ :: cs) ll lv lb lr
  | Pos.focus cs Tree.nil v b r => climb_while_left cs (Tree.node Tree.nil v b r)

/-- `iterator::operator++` / the null guard of `next_in_order_impl`: a
default-constructed iterator holds a null link and stays null. -/
def next_in_order_opt {α : Type} : Option (Pos α) → Option (Pos α)
  | none => none
  | some p => some (next_in_order_impl p)

/-- `iterator::operator--` / the null guard of `prev_in_order_impl`. -/
def prev_in_order_opt {α : Type} : Option (Pos α) → Option (Pos α)
  | none => none
  | some p => some (prev_in_order_impl p)

/-- `intrusive_avl_tree_base::begin_impl`: from the sentinel follow left
children while non-null; on an empty tree this is the sentinel itself,
otherwise the leftmost node of the tree. -/
def begin_impl {α : Type} : Tree α → Pos α
  | Tree.nil => Pos.origin Tree.nil
  | Tree.node l v b r => find_extremum_impl false [] l v b r

/-- `intrusive_avl_tree_base::end_impl`: always the sentinel. -/
def end_impl {α : Type} (t : Tree α) : Pos α := Pos.origin t

/-- `intrusive_avl_tree_base::find_impl`: descend from the root; a zero
comparator result returns the node, positive goes right, negative left;
falling off the tree returns null. -/
def find_impl {α : Type} (comp : α → Int) : Tree α → Option α
  | Tree.nil => none
  | Tree.node l v _ r =>
    let c := comp v
    if c = 0 then some v
    else if 0 < c then find_impl comp r
    else find_impl comp l

/-- The list of node values visited by the descent of `find_impl` /
`find_or_insert_impl` (each visited node, stopping after a zero result). -/
def descent_path {α : Type} (comp : α → Int) : Tree α → List α
  | Tree.nil => []
  | Tree.node l v _ r =>
    let c := comp v
    v :: (if c = 0 then [] else if 0 < c then descent_path comp r else descent_path comp l)

/-- `intrusive_avl_tree_base::find_or_insert_impl`: descend exactly as
`find_impl`, remembering the last visited node and direction; on a zero
match return `(node, false)` with the tree untouched; otherwise invoke the
factory — if it declines return `(null, false)` with the tree untouched,
else wire its (freshly linked: null children, balance factor 0) node in as
the recorded child of the last visited node (or as root) and return
`(node, true)`.  No rebalancing is performed (the C++ body carries
`TODO: Rebalance the tree.`). -/
def find_or_insert_impl {α : Type} (comp : α → Int) (factory : Option α) :
    Tree α → (Option α × Bool) × Tree α
  | Tree.nil =>
    match factory with
    | none => ((none, false), Tree.nil)
    | some x => ((some x, true), Tree.node Tree.nil x 0 Tree.nil)
  | Tree.node l v b r =>
    let c := comp v
    if c = 0 then ((some v, false), Tree.node l v b r)
    else if 0 < c then
      let res := find_or_insert_impl comp factory r
      (res.1, Tree.node l v b res.2)
    else
      let res := find_or_insert_impl comp factory l
      (res.1, Tree.node res.2 v b r)

/-- An `intrusive_avl_tree::iterator` as returned by `find` /
`find_or_insert`: either `end()` or a dereferenceable node. -/
inductive Iter (α : Type) where
  | atEnd : Iter α
  | toVal (v : α) : Iter α
deriving DecidableEq, Repr

/-- `intrusive_avl_tree::make_iterator`: a null pointer becomes `end()`. -/
def make_iterator {α : Type} : Option α → Iter α
  | none => Iter.atEnd
  | some v => Iter.toVal v

/-- `intrusive_avl_tree::find`. -/
def find {α : Type} (comp : α → Int) (t : Tree α) : Iter α :=
  make_iterator (find_impl comp t)

/-- `intrusive_avl_tree::find_or_insert`: wraps `find_or_insert_impl`,
turning the returned pointer into an iterator (null ↦ `end()`). -/
def find_or_insert {α : Type} (comp : α → Int) (factory : Option α) (t : Tree α) :
    (Iter α × Bool) × Tree α :=
  let res := find_or_insert_impl comp factory t
  ((make_iterator res.1.1, res.1.2), res.2)

/-- The comparator half of `intrusive_avl_tree_base::CompareFactory`, used
by `assign_impl`: `lessComp(value, other) ? -1 : +1` — note it never
returns 0. -/
def compareFactory_comp {α : Type} (less : α → α → Bool) (x : α) (other : α) : Int :=
  if less x other then -1 else 1

/-- `intrusive_avl_tree_base::assign_impl` (the range constructor's body):
insert each element of the range in turn through `find_or_insert_impl`,
using `CompareFactory` as both comparator and factory (the factory returns
the address of the range element itself). -/
def assign_impl {α : Type} (less : α → α → Bool) (vals : List α) (t : Tree α) : Tree α :=
  vals.foldl (fun acc x => (find_or_insert_impl (compareFactory_comp less x) (some x) acc).2) t

/-- A sequence of `find_or_insert` calls, each given by its comparator and
its factory result, applied in order starting from `t`. -/
def apply_ops {α : Type} (ops : List ((α → Int) × Option α)) (t : Tree α) : Tree α :=
  ops.foldl (fun acc op => (find_or_insert_impl op.1 op.2 acc).2) t

/-- The caller-side comparator of the unit tests (`CompareByValue`):
`value - other`, negative when the sought key is smaller. -/
def compareByValue (k v : Int) : Int := k - v

/-- Iterate a function `n` times. -/
def applyN {β : Type} (f : β → β) : Nat → β → β
  | 0, x => x
  | n + 1, x => applyN f n (f x)

/-- The value an iterator dereferences to, if it is not at the sentinel. -/
def posVal {α : Type} : Pos α → Option α
  | Pos.origin _ => none
  | Pos.focus _ _ v _ _ => some v

/-- Values collected by repeatedly dereferencing and incrementing an
iterator (`fuel` bounds the number of steps), stopping at `end()`. -/
def walk {α : Type} : Nat → Pos α → List α
  | 0, _ => []
  | _ + 1, Pos.origin _ => []
  | n + 1, Pos.focus cs l v b r => v :: walk n (next_in_order_impl (Pos.focus cs l v b r))

/-- Values collected by repeatedly decrementing an iterator and then
dereferencing it, stopping once the decrement reaches `end()`. -/
def walk_back {α : Type} : Nat → Pos α → List α
  | 0, _ => []
  | n + 1, p =>
    match prev_in_order_impl p with
    | Pos.origin _ => []
    | Pos.focus cs l v b r => v :: walk_back n (Pos.focus cs l v b r)

/-! ### Specification-side predicates -/

/-- `P` holds at every node reachable from a link. -/
def ForallT {α : Type} (P : α → Prop) : Tree α → Prop
  | Tree.nil => True
  | Tree.node l v _ r => ForallT P l ∧ P v ∧ ForallT P r

/-- The search-tree invariant of the container (spec §3): every left
descendant is smaller, every right descendant larger, under the external
strict total order. -/
def IsBST {α : Type} [LinearOrder α] : Tree α → Prop
  | Tree.nil => True
  | Tree.node l v _ r => ForallT (· < v) l ∧ ForallT (v < ·) r ∧ IsBST l ∧ IsBST r

/-- A three-way comparator is consistent with the strict total order and the
value `x` it stands for: it is negative exactly on values above `x` and
positive exactly on values below `x` (hence zero exactly at `x`). -/
def Consistent {α : Type} [LinearOrder α] (comp : α → Int) (x : α) : Prop :=
  ∀ v, (comp v < 0 ↔ x < v) ∧ (0 < comp v ↔ v < x)

def forallT_dec {α : Type} {P : α → Prop} [DecidablePred P] :
    (t : Tree α) → Decidable (ForallT P t)
  | Tree.nil => Decidable.isTrue trivial
  | Tree.node l v _ r =>
    letI := forallT_dec (P := P) l
    letI := forallT_dec (P := P) r
    inferInstanceAs (Decidable (_ ∧ _ ∧ _))

instance {α : Type} {P : α → Prop} [DecidablePred P] (t : Tree α) :
    Decidable (ForallT P t) := forallT_dec t

def isBST_dec {α : Type} [LinearOrder α] : (t : Tree α) → Decidable (IsBST t)
  | Tree.nil => Decidable.isTrue trivial
  | Tree.node l v _ r =>
    letI := isBST_dec l
    letI := isBST_dec r
    inferInstanceAs (Decidable (_ ∧ _ ∧ _ ∧ _))

instance {α : Type} [LinearOrder α] (t : Tree α) : Decidable (IsBST t) := isBST_dec t

/-! ### The in-order sequence ahead of / behind a position

For a focused node, `toSeq` is the list of values the forward iterator will
still produce (the focus first); `upRight cs` collects, from the crumbs, the
ancestors (and their right subtrees) still to be visited.  `toSeqRev` /
`upLeft` are the mirror images for the backward iterator. -/

def upRight {α : Type} : List (Crumb α) → List α
  | [] => []
  | ⟨true, _, _, _⟩ :: rest => upRight rest
  | ⟨false, v, _, other⟩ :: rest => v :: (inorder other ++ upRight rest)

def toSeq {α : Type} : Pos α → List α
  | Pos.origin _ => []
  | Pos.focus cs _ v _ r => v :: (inorder r ++ upRight cs)

def upLeft {α : Type} : List (Crumb α) → List α
  | [] => []
  | ⟨false, _, _, _⟩ :: rest => upLeft rest
  | ⟨true, v, _, other⟩ :: rest => v :: ((inorder other).reverse ++ upLeft rest)

def toSeqRev {α : Type} : Pos α → List α
  | Pos.origin _ => []
  | Pos.focus cs l v _ _ => v :: ((inorder l).reverse ++ upLeft cs)

/-- The reverse-order sequence the backward iterator produces after one
decrement from the given position. -/
def predSeq {α : Type} : Pos α → List α
  | Pos.origin t => (inorder t).reverse
  | Pos.focus cs l _ _ _ => (inorder l).reverse ++ upLeft cs

/-! ### Forward traversal lemmas -/

theorem toSeq_find_extremum_min {α : Type} (l : Tree α) :
    ∀ (cs : List (Crumb α)) (v : α) (b : Int) (r : Tree α),
      toSeq (find_extremum_impl false cs l v b r) =
        inorder l ++ v :: (inorder r ++ upRight cs) := by
  induction l with
  | nil =>
    intro cs v b r
    rw [find_extremum_impl.eq_def]
    simp [toSeq, inorder]
  | node ll lv lb lr ihl ihr =>
    intro cs v b r
    rw [find_extremum_impl.eq_def]
    simp only [Bool.false_eq_true, if_false]
    rw [ihl]
    simp [inorder, upRight, List.append_assoc]

theorem toSeq_climb_while_right {α : Type} :
    ∀ (cs : List (Crumb α)) (t : Tree α), toSeq (climb_while_right cs t) = upRight cs := by
  intro cs
  induction cs with
  | nil => intro t; simp [climb_while_right, toSeq, upRight]
  | cons c rest ih =>
    intro t
    rcases c with ⟨fr, v, b, other⟩
    cases fr with
    | true => simp [climb_while_right, upRight, ih]
    | false => simp [climb_while_right, upRight, toSeq]

theorem toSeq_next_in_order {α : Type} (p : Pos α) :
    toSeq (next_in_order_impl p) = (toSeq p).tail := by
  cases p with
  | origin t => simp [next_in_order_impl, toSeq]
  | focus cs l v b r =>
    cases r with
    | nil =>
      show toSeq (climb_while_right cs (Tree.node l v b Tree.nil)) = _
      rw [toSeq_climb_while_right]
      simp [toSeq, inorder]
    | node rl rv rb rr =>
      show toSeq (find_extremum_impl false (⟨true, v, b, l⟩ :: cs) rl rv rb rr) = _
      rw [toSeq_find_extremum_min]
      simp [toSeq, inorder, upRight, List.append_assoc]

theorem walk_eq_toSeq {α : Type} :
    ∀ (n : Nat) (p : Pos α), (toSeq p).length ≤ n → walk n p = toSeq p := by
  intro n
  induction n with
  | zero =>
    intro p h
    have : toSeq p = [] := List.eq_nil_of_length_eq_zero (Nat.le_zero.mp h)
    simp [walk, this]
  | succ n ih =>
    intro p h
    cases p with
    | origin t => simp [walk, toSeq]
    | focus cs l v b r =>
      have hn : (toSeq (next_in_order_impl (Pos.focus cs l v b r))).length ≤ n := by
        rw [toSeq_next_in_order]
        simpa [toSeq] using Nat.le_of_succ_le_succ h
      have hw := ih _ hn
      show v :: walk n (next_in_order_impl (Pos.focus cs l v b r)) = _
      rw [hw, toSeq_next_in_order]
      simp [toSeq]

theorem toSeq_begin {α : Type} (t : Tree α) : toSeq (begin_impl t) = inorder t := by
  cases t with
  | nil => simp [begin_impl, toSeq, inorder]
  | node l v b r => simp [begin_impl, toSeq_find_extremum_min, inorder, upRight]

theorem size_eq_length_inorder {α : Type} (t : Tree α) : t.size = (inorder t).length := by
  induction t with
  | nil => simp [Tree.size, inorder]
  | node l v b r ihl ihr => simp [Tree.size, inorder, ihl, ihr]; omega

/-- The forward iterator walk from `begin()` produces exactly the in-order
sequence of the tree. -/
theorem walk_begin {α : Type} (t : Tree α) : walk t.size (begin_impl t) = inorder t := by
  rw [walk_eq_toSeq t.size (begin_impl t) (by rw [toSeq_begin, size_eq_length_inorder])]
  exact toSeq_begin t

/-! ### Backward traversal lemmas -/

theorem toSeqRev_find_extremum_max {α : Type} (r : Tree α) :
    ∀ (cs : List (Crumb α)) (l : Tree α) (v : α) (b : Int),
      toSeqRev (find_extremum_impl true cs l v b r) =
        (inorder (Tree.node l v b r)).reverse ++ upLeft cs := by
  induction r with
  | nil =>
    intro cs l v b
    rw [find_extremum_impl.eq_def]
    simp [toSeqRev, inorder]
  | node rl rv rb rr ihl ihr =>
    intro cs l v b
    rw [find_extremum_impl.eq_def]
    simp only [if_true]
    rw [ihr]
    simp [inorder, upLeft, List.append_assoc]

theorem toSeqRev_climb_while_left {α : Type} :
    ∀ (cs : List (Crumb α)) (t : Tree α), toSeqRev (climb_while_left cs t) = upLeft cs := by
  intro cs
  induction cs with
  | nil => intro t; simp [climb_while_left, toSeqRev, upLeft]
  | cons c rest ih =>
    intro t
    rcases c with ⟨fr, v, b, other⟩
    cases fr with
    | false => simp [climb_while_left, upLeft, ih]
    | true => simp [climb_while_left, upLeft, toSeqRev]

theorem toSeqRev_prev_in_order {α : Type} (p : Pos α) :
    toSeqRev (prev_in_order_impl p) = predSeq p := by
  cases p with
  | origin t =>
    cases t with
    | nil => simp [prev_in_order_impl, toSeqRev, predSeq, inorder]
    | node l v b r =>
      show toSeqRev (find_extremum_impl true [] l v b r) = _
      rw [toSeqRev_find_extremum_max]
      simp [predSeq, upLeft]
  | focus cs l v b r =>
    cases l with
    | nil =>
      show toSeqRev (climb_while_left cs (Tree.node Tree.nil v b r)) = _
      rw [toSeqRev_climb_while_left]
      simp [predSeq, inorder]
    | node ll lv lb lr =>
      show toSeqRev (find_extremum_impl true (⟨false, v, b, r⟩ :: cs) ll lv lb lr) = _
      rw [toSeqRev_find_extremum_max]
      simp [predSeq, upLeft, inorder]

theorem walk_back_eq_predSeq {α : Type} :
    ∀ (n : Nat) (p : Pos α), (predSeq p).length ≤ n → walk_back n p = predSeq p := by
  intro n
  induction n with
  | zero =>
    intro p h
    have : predSeq p = [] := List.eq_nil_of_length_eq_zero (Nat.le_zero.mp h)
    simp [walk_back, this]
  | succ n ih =>
    intro p h
    have hrev := toSeqRev_prev_in_order p
    cases hq : prev_in_order_impl p with
    | origin t =>
      rw [hq] at hrev
      simp only [toSeqRev] at hrev
      simp [walk_back, hq, ← hrev]
    | focus cs l v b r =>
      rw [hq] at hrev
      simp only [toSeqRev] at hrev
      have hlen : (predSeq (Pos.focus cs l v b r)).length ≤ n := by
        simp only [predSeq]
        have : (predSeq p).length = ((inorder l).reverse ++ upLeft cs).length + 1 := by
          rw [← hrev]; simp
        omega
      have hw := ih _ hlen
      show (match prev_in_order_impl p with
        | Pos.origin _ => []
        | Pos.focus cs l v b r => v :: walk_back n (Pos.focus cs l v b r)) = predSeq p
      rw [hq]
      show v :: walk_back n (Pos.focus cs l v b r) = predSeq p
      rw [hw, ← hrev]
      simp [predSeq]

/-- The backward iterator walk from `end()` produces the reverse of the
in-order sequence. -/
theorem walk_back_end {α : Type} (t : Tree α) :
    walk_back t.size (end_impl t) = (inorder t).reverse := by
  have h : (predSeq (Pos.origin t)).length ≤ t.size := by
    simp [predSeq, size_eq_length_inorder]
  have := walk_back_eq_predSeq t.size (end_impl t) h
  simpa [predSeq, end_impl] using this

theorem posVal_eq_head_toSeqRev {α : Type} (p : Pos α) :
    posVal p = (toSeqRev p).head? := by
  cases p with
  | origin t => simp [posVal, toSeqRev]
  | focus cs l v b r => simp [posVal, toSeqRev]

/-- Decrementing `end()` focuses the last element of the in-order walk (the
maximum, once the tree is known to be search-ordered). -/
theorem posVal_prev_end {α : Type} (t : Tree α) :
    posVal (prev_in_order_impl (end_impl t)) = (inorder t).getLast? := by
  rw [posVal_eq_head_toSeqRev, toSeqRev_prev_in_order]
  simp [predSeq, end_impl, List.head?_reverse]

/-! ### Search-tree invariant and `find_or_insert_impl` -/

theorem forallT_iff_mem_inorder {α : Type} (P : α → Prop) (t : Tree α) :
    ForallT P t ↔ ∀ x ∈ inorder t, P x := by
  induction t with
  | nil => simp [ForallT, inorder]
  | node l v b r ihl ihr =>
    simp only [ForallT, inorder, List.mem_append, List.mem_cons, ihl, ihr]
    constructor
    · rintro ⟨hl, hv, hr⟩ x (hx | rfl | hx)
      · exact hl x hx
      · exact hv
      · exact hr x hx
    · intro h
      exact ⟨fun x hx => h x (Or.inl hx), h v (Or.inr (Or.inl rfl)),
        fun x hx => h x (Or.inr (Or.inr hx))⟩

theorem forallT_find_or_insert {α : Type} (P : α → Prop) (comp : α → Int)
    (factory : Option α) (t : Tree α) (ht : ForallT P t)
    (hf : ∀ x, factory = some x → P x) :
    ForallT P (find_or_insert_impl comp factory t).2 := by
  induction t with
  | nil =>
    cases factory with
    | none => simpa [find_or_insert_impl] using ht
    | some x =>
      simp only [find_or_insert_impl]
      exact ⟨trivial, hf x rfl, trivial⟩
  | node l v b r ihl ihr =>
    obtain ⟨hl, hv, hr⟩ := ht
    simp only [find_or_insert_impl]
    split
    · exact ⟨hl, hv, hr⟩
    · split
      · exact ⟨hl, hv, ihr hr⟩
      · exact ⟨ihl hl, hv, hr⟩

theorem isBST_find_or_insert {α : Type} [LinearOrder α] (comp : α → Int)
    (factory : Option α) (t : Tree α) (ht : IsBST t)
    (hf : ∀ x, factory = some x → Consistent comp x) :
    IsBST (find_or_insert_impl comp factory t).2 := by
  induction t with
  | nil =>
    cases factory with
    | none => simpa [find_or_insert_impl] using ht
    | some x =>
      simp only [find_or_insert_impl]
      exact ⟨trivial, trivial, trivial, trivial⟩
  | node l v b r ihl ihr =>
    obtain ⟨hlv, hvr, hbl, hbr⟩ := ht
    simp only [find_or_insert_impl]
    split
    · exact ⟨hlv, hvr, hbl, hbr⟩
    · split
      · refine ⟨hlv, ?_, hbl, ihr hbr⟩
        refine forallT_find_or_insert _ comp factory r hvr ?_
        intro x hx
        have hc := hf x hx
        exact ((hc v).2).mp (by omega)
      · refine ⟨?_, hvr, ihl hbl, hbr⟩
        refine forallT_find_or_insert _ comp factory l hlv ?_
        intro x hx
        have hc := hf x hx
        exact ((hc v).1).mp (by omega)

theorem isBST_apply_ops {α : Type} [LinearOrder α]
    (ops : List ((α → Int) × Option α)) :
    ∀ (t : Tree α), IsBST t →
      (∀ op ∈ ops, ∀ x, op.2 = some x → Consistent op.1 x) →
      IsBST (apply_ops ops t) := by
  induction ops with
  | nil => intro t ht _; simpa [apply_ops] using ht
  | cons op rest ih =>
    intro t ht h
    have h1 : IsBST (find_or_insert_impl op.1 op.2 t).2 :=
      isBST_find_or_insert op.1 op.2 t ht (h op (by simp))
    have h2 : ∀ q ∈ rest, ∀ x, q.2 = some x → Consistent q.1 x := by
      intro q hq; exact h q (by simp [hq])
    simpa [apply_ops] using ih _ h1 h2

theorem sorted_inorder_of_isBST {α : Type} [LinearOrder α] (t : Tree α)
    (ht : IsBST t) : List.Sorted (· < ·) (inorder t) := by
  induction t with
  | nil => simp [inorder]
  | node l v b r ihl ihr =>
    obtain ⟨hlv, hvr, hbl, hbr⟩ := ht
    rw [forallT_iff_mem_inorder] at hlv hvr
    simp only [inorder]
    refine List.pairwise_append.mpr
      ⟨ihl hbl, List.pairwise_cons.mpr ⟨fun y hy => hvr y hy, ihr hbr⟩, ?_⟩
    intro x hx y hy
    rcases List.mem_cons.mp hy with rfl | hy
    · exact hlv x hx
    · exact lt_trans (hlv x hx) (hvr y hy)

/-! ### `find_impl` and `find_or_insert_impl` behaviour -/

theorem find_impl_eq_first_zero_on_descent {α : Type} (comp : α → Int) (t : Tree α) :
    find_impl comp t = (descent_path comp t).find? (fun v => comp v == 0) := by
  induction t with
  | nil => simp [find_impl, descent_path]
  | node l v b r ihl ihr =>
    simp only [find_impl, descent_path]
    by_cases h0 : comp v = 0
    · simp [h0]
    · by_cases hpos : 0 < comp v
      · simp [h0, hpos, ihr]
      · simp [h0, hpos, ihl]

theorem find_impl_none_of_no_zero {α : Type} (comp : α → Int) (t : Tree α)
    (h : ∀ v ∈ inorder t, comp v ≠ 0) : find_impl comp t = none := by
  induction t with
  | nil => simp [find_impl]
  | node l v b r ihl ihr =>
    have hv : comp v ≠ 0 := h v (by simp [inorder])
    have hl : ∀ x ∈ inorder l, comp x ≠ 0 := fun x hx => h x (by simp [inorder, hx])
    have hr : ∀ x ∈ inorder r, comp x ≠ 0 := fun x hx => h x (by simp [inorder, hx])
    simp only [find_impl]
    by_cases hpos : 0 < comp v
    · simp [hv, hpos, ihr hr]
    · simp [hv, hpos, ihl hl]

theorem find_or_insert_impl_none_of_no_zero {α : Type} (comp : α → Int) (t : Tree α)
    (h : ∀ v ∈ inorder t, comp v ≠ 0) :
    find_or_insert_impl comp none t = ((none, false), t) := by
  induction t with
  | nil => simp [find_or_insert_impl]
  | node l v b r ihl ihr =>
    have hv : comp v ≠ 0 := h v (by simp [inorder])
    have hl : ∀ x ∈ inorder l, comp x ≠ 0 := fun x hx => h x (by simp [inorder, hx])
    have hr : ∀ x ∈ inorder r, comp x ≠ 0 := fun x hx => h x (by simp [inorder, hx])
    simp only [find_or_insert_impl]
    by_cases hpos : 0 < comp v
    · simp [hv, hpos, ihr hr]
    · simp [hv, hpos, ihl hl]

/-- With a consistent comparator on a search tree containing the matched
value, the descent of `find_or_insert_impl` reaches it: the call returns the
existing node with `false` and leaves the tree untouched, for every factory. -/
theorem find_or_insert_impl_of_mem {α : Type} [LinearOrder α] (comp : α → Int)
    (t : Tree α) (x : α) (hbst : IsBST t) (hcons : Consistent comp x)
    (hmem : x ∈ inorder t) (factory : Option α) :
    find_or_insert_impl comp factory t = ((some x, false), t) := by
  induction t with
  | nil => simp [inorder] at hmem
  | node l v b r ihl ihr =>
    obtain ⟨hlv, hvr, hbl, hbr⟩ := hbst
    rw [forallT_iff_mem_inorder] at hlv hvr
    rcases lt_trichotomy x v with hxv | hxv | hxv
    · have hneg : comp v < 0 := ((hcons v).1).mpr hxv
      have hx : x ∈ inorder l := by
        rcases (by simpa [inorder] using hmem : x ∈ inorder l ∨ x = v ∨ x ∈ inorder r) with
          h | h | h
        · exact h
        · exact absurd h (ne_of_lt hxv)
        · exact absurd (hvr x h) (not_lt_of_gt hxv)
      simp only [find_or_insert_impl]
      simp [show ¬ comp v = 0 by omega, show ¬ 0 < comp v by omega, ihl hbl hx]
    · have h0 : comp v = 0 := by
        have h1 := (hcons v).1
        have h2 := (hcons v).2
        subst hxv
        simp at h1 h2
        omega
      simp [find_or_insert_impl, h0, hxv]
    · have hpos : 0 < comp v := ((hcons v).2).mpr hxv
      have hx : x ∈ inorder r := by
        rcases (by simpa [inorder] using hmem : x ∈ inorder l ∨ x = v ∨ x ∈ inorder r) with
          h | h | h
        · exact absurd (hlv x h) (not_lt_of_gt hxv)
        · exact absurd h.symm (ne_of_lt hxv)
        · exact h
      simp only [find_or_insert_impl]
      simp [show ¬ comp v = 0 by omega, hpos, ihr hbr hx]

/-- A list without duplicates all of whose members equal `x` has at most one
element. -/
theorem length_le_one_of_nodup_of_all_eq {α : Type} (l : List α) (x : α)
    (hnd : l.Nodup) (hall : ∀ y ∈ l, y = x) : l.length ≤ 1 := by
  match l with
  | [] => simp
  | [a] => simp
  | a :: b :: rest =>
    have ha : a = x := hall a (by simp)
    have hb : b = x := hall b (by simp)
    rw [List.nodup_cons] at hnd
    exact absurd (by simp [ha, hb]) hnd.1

/-- On a search tree, a consistent comparator matches at most one reachable
node: comparator-equal duplicates cannot coexist. -/
theorem countP_zero_le_one {α : Type} [LinearOrder α] (comp : α → Int) (t : Tree α)
    (x : α) (hbst : IsBST t) (hcons : Consistent comp x) :
    (inorder t).countP (fun v => comp v == 0) ≤ 1 := by
  have hnd : (inorder t).Nodup := (sorted_inorder_of_isBST t hbst).nodup
  have hfilter : ∀ y ∈ (inorder t).filter (fun v => comp v == 0), y = x := by
    intro y hy
    have h0 : comp y = 0 := by simpa using (List.mem_filter.mp hy).2
    have h1 := (hcons y).1
    have h2 := (hcons y).2
    rcases lt_trichotomy x y with h | h | h
    · exact absurd (h1.mpr h) (by omega)
    · exact h.symm
    · exact absurd (h2.mpr h) (by omega)
  rw [List.countP_eq_length_filter]
  exact length_le_one_of_nodup_of_all_eq _ x (hnd.filter _) hfilter

/-- The comparator used by the unit tests (`value - other`) is consistent
with the order of `Int` for the key it encodes. -/
theorem consistent_compareByValue (k : Int) : Consistent (compareByValue k) k := by
  intro v
  simp only [compareByValue]
  refine ⟨?_, ?_⟩ <;> omega

/-! ## Claim theorems -/

/-- Claim C1 (code behaviour at the failing input): the claim states that
after any sequence of successful `find_or_insert` operations every reachable
node has height imbalance at most 1 and a stored balance factor equal to the
live height difference.  The code performs no rebalancing
(`TODO: Rebalance the tree.`) and never updates `etl_bf`: inserting keys
1, 2, 3 in ascending order produces a right chain whose root has left height
0, right height 2 (imbalance 2 > 1) and stored balance factor 0 ≠ 2. -/
theorem C1_unbalanced_after_ascending_inserts :
    apply_ops [(compareByValue 1, some 1), (compareByValue 2, some 2),
        (compareByValue 3, some 3)] Tree.nil
      = Tree.node Tree.nil 1 0 (Tree.node Tree.nil 2 0 (Tree.node Tree.nil 3 0 Tree.nil))
    ∧ (Tree.node Tree.nil (2 : Int) 0 (Tree.node Tree.nil 3 0 Tree.nil)).height = 2
    ∧ (Tree.nil : Tree Int).height = 0 := by
  decide

/-- Claim C2: for every tree obtained from the empty tree by a sequence of
`find_or_insert` operations whose comparators are consistent with one strict
total order, the in-order walk from `begin()` to `end()` (repeated
increment) visits the stored values in non-decreasing order. -/
theorem C2_inorder_walk_sorted {α : Type} [LinearOrder α]
    (ops : List ((α → Int) × Option α))
    (h : ∀ op ∈ ops, ∀ x, op.2 = some x → Consistent op.1 x) :
    walk (apply_ops ops Tree.nil).size (begin_impl (apply_ops ops Tree.nil)) =
      inorder (apply_ops ops Tree.nil)
    ∧ List.Sorted (· ≤ ·) (inorder (apply_ops ops Tree.nil)) := by
  have hbst : IsBST (apply_ops ops Tree.nil) := isBST_apply_ops ops Tree.nil trivial h
  exact ⟨walk_begin _, (sorted_inorder_of_isBST _ hbst).imp (fun hlt => le_of_lt hlt)⟩

theorem C2_witness :
    (∀ op ∈ ([(compareByValue 2, some 2), (compareByValue 1, some 1),
          (compareByValue 3, some 3), (compareByValue 2, none)] :
          List ((Int → Int) × Option Int)),
        ∀ x, op.2 = some x → Consistent op.1 x)
    ∧ (walk (apply_ops [(compareByValue 2, some 2), (compareByValue 1, some 1),
          (compareByValue 3, some 3), (compareByValue 2, none)] Tree.nil).size
        (begin_impl (apply_ops [(compareByValue 2, some 2), (compareByValue 1, some 1),
          (compareByValue 3, some 3), (compareByValue 2, none)] Tree.nil)) =
        inorder (apply_ops [(compareByValue 2, some 2), (compareByValue 1, some 1),
          (compareByValue 3, some 3), (compareByValue 2, none)] Tree.nil)
      ∧ List.Sorted (· ≤ ·)
          (inorder (apply_ops [(compareByValue 2, some 2), (compareByValue 1, some 1),
            (compareByValue 3, some 3), (compareByValue 2, none)] Tree.nil))) := by
  have h : ∀ op ∈ ([(compareByValue 2, some 2), (compareByValue 1, some 1),
        (compareByValue 3, some 3), (compareByValue 2, none)] :
        List ((Int → Int) × Option Int)),
      ∀ x, op.2 = some x → Consistent op.1 x := by
    intro op hop x hx
    rcases List.mem_cons.mp hop with rfl | hop
    · injection hx with hx2; subst hx2; exact consistent_compareByValue 2
    rcases List.mem_cons.mp hop with rfl | hop
    · injection hx with hx2; subst hx2; exact consistent_compareByValue 1
    rcases List.mem_cons.mp hop with rfl | hop
    · injection hx with hx2; subst hx2; exact consistent_compareByValue 3
    rcases List.mem_cons.mp hop with rfl | hop
    · cases hx
    · simp at hop
  exact ⟨h, C2_inorder_walk_sorted _ h⟩

/-- Claim C3 counterexample: the claim quantifies over *every* comparator
that maps some reachable node to zero.  For the (search) tree built by
inserting 5 then 3 and the inconsistent comparator that is 0 on 3 and +1
everywhere else, the descent goes right at the root, misses the matching
node 3, invokes the factory and links its value 7 — the tree is modified and
the returned pair is `(iterator-to-7, true)`, not `(iterator-to-3, false)`. -/
theorem C3_counterexample :
    ((3 : Int) ∈ inorder (apply_ops [(compareByValue 5, some 5),
        (compareByValue 3, some 3)] Tree.nil)
      ∧ (fun v : Int => if v = 3 then 0 else 1) 3 = 0)
    ∧ find_or_insert (fun v : Int => if v = 3 then 0 else 1) (some 7)
        (apply_ops [(compareByValue 5, some 5), (compareByValue 3, some 3)] Tree.nil)
      = ((Iter.toVal 7, true),
         Tree.node (Tree.node Tree.nil 3 0 Tree.nil) 5 0 (Tree.node Tree.nil 7 0 Tree.nil))
    ∧ find_or_insert (fun v : Int => if v = 3 then 0 else 1) (some 7)
        (apply_ops [(compareByValue 5, some 5), (compareByValue 3, some 3)] Tree.nil)
      ≠ ((Iter.toVal 3, false),
         apply_ops [(compareByValue 5, some 5), (compareByValue 3, some 3)] Tree.nil) := by
  decide

/-- Claim C3 (amended): for every search-ordered tree and every comparator
*consistent with that order* that maps a reachable node `x` to zero,
`find_or_insert` returns `(iterator-to-x, false)` for every factory (so the
factory result is irrelevant — it is never invoked) and leaves the tree
unchanged; moreover at most one reachable node compares equal under such a
comparator (no duplicates coexist). -/
theorem C3_amended_existing_preserved {α : Type} [LinearOrder α] (t : Tree α)
    (comp : α → Int) (x : α) (hbst : IsBST t) (hcons : Consistent comp x)
    (hmem : x ∈ inorder t) :
    (∀ factory : Option α, find_or_insert comp factory t = ((Iter.toVal x, false), t))
    ∧ (inorder t).countP (fun v => comp v == 0) ≤ 1 := by
  refine ⟨?_, countP_zero_le_one comp t x hbst hcons⟩
  intro factory
  simp [find_or_insert, find_or_insert_impl_of_mem comp t x hbst hcons hmem factory,
    make_iterator]

theorem C3_amended_witness :
    (IsBST (Tree.node (Tree.node Tree.nil (3 : Int) 0 Tree.nil) 5 0 Tree.nil)
      ∧ Consistent (compareByValue 3) (3 : Int)
      ∧ (3 : Int) ∈ inorder (Tree.node (Tree.node Tree.nil (3 : Int) 0 Tree.nil) 5 0 Tree.nil))
    ∧ ((∀ factory : Option Int,
          find_or_insert (compareByValue 3) factory
            (Tree.node (Tree.node Tree.nil (3 : Int) 0 Tree.nil) 5 0 Tree.nil)
          = ((Iter.toVal 3, false),
             Tree.node (Tree.node Tree.nil (3 : Int) 0 Tree.nil) 5 0 Tree.nil))
      ∧ (inorder (Tree.node (Tree.node Tree.nil (3 : Int) 0 Tree.nil) 5 0 Tree.nil)).countP
          (fun v => compareByValue 3 v == 0) ≤ 1) :=
  ⟨⟨by decide, consistent_compareByValue 3, by decide⟩,
    C3_amended_existing_preserved _ _ _ (by decide) (consistent_compareByValue 3) (by decide)⟩

/-- Claim C4: when the comparator matches no existing node and the factory
declines (returns null), `find_or_insert` returns `(end(), false)` and every
link and balance factor reachable from the origin is exactly as before. -/
theorem C4_factory_declines {α : Type} (t : Tree α) (comp : α → Int)
    (h : ∀ v ∈ inorder t, comp v ≠ 0) :
    find_or_insert comp none t = ((Iter.atEnd, false), t) := by
  simp [find_or_insert, find_or_insert_impl_none_of_no_zero comp t h, make_iterator]

theorem C4_witness :
    (∀ v ∈ inorder (Tree.node Tree.nil (5 : Int) 0 Tree.nil), compareByValue 9 v ≠ 0)
    ∧ find_or_insert (compareByValue 9) none (Tree.node Tree.nil (5 : Int) 0 Tree.nil)
        = ((Iter.atEnd, false), Tree.node Tree.nil (5 : Int) 0 Tree.nil) :=
  ⟨by decide, C4_factory_declines _ _ (by decide)⟩

/-- Claim C5: `find` descends following the comparator sign (the descent
path), returns the first node of that descent where the comparator yields
zero, returns `end()` when no reachable node yields zero, and in particular
a constantly negative (or constantly positive) comparator on a non-empty
tree returns `end()`. -/
theorem C5_find_descent {α : Type} (comp : α → Int) (t : Tree α) :
    find_impl comp t = (descent_path comp t).find? (fun v => comp v == 0)
    ∧ ((∀ v ∈ inorder t, comp v ≠ 0) → find comp t = Iter.atEnd)
    ∧ (t ≠ Tree.nil → find (fun _ => (-1 : Int)) t = Iter.atEnd
        ∧ find (fun _ => (1 : Int)) t = Iter.atEnd) := by
  refine ⟨find_impl_eq_first_zero_on_descent comp t, ?_, ?_⟩
  · intro h
    simp [find, find_impl_none_of_no_zero comp t h, make_iterator]
  · intro _
    refine ⟨?_, ?_⟩
    · have h1 : find_impl (fun _ => (-1 : Int)) t = none :=
        find_impl_none_of_no_zero (fun _ => (-1 : Int)) t (by intro v hv; simp)
      simp [find, h1, make_iterator]
    · have h2 : find_impl (fun _ => (1 : Int)) t = none :=
        find_impl_none_of_no_zero (fun _ => (1 : Int)) t (by intro v hv; simp)
      simp [find, h2, make_iterator]

theorem C5_witness :
    ((Tree.node Tree.nil (5 : Int) 0 Tree.nil ≠ Tree.nil
        ∧ (find (fun _ => (-1 : Int)) (Tree.node Tree.nil (5 : Int) 0 Tree.nil) = Iter.atEnd
          ∧ find (fun _ => (1 : Int)) (Tree.node Tree.nil (5 : Int) 0 Tree.nil) = Iter.atEnd)))
    ∧ ((∀ v ∈ inorder (Tree.node Tree.nil (5 : Int) 0 Tree.nil), compareByValue 9 v ≠ 0)
      ∧ find (compareByValue 9) (Tree.node Tree.nil (5 : Int) 0 Tree.nil) = Iter.atEnd) :=
  ⟨⟨by decide, (C5_find_descent (fun _ => (-1 : Int)) _).2.2 (by decide)⟩,
    ⟨by decide, (C5_find_descent (compareByValue 9) _).2.1 (by decide)⟩⟩

/-- Claim C6 (code behaviour at the failing input): the claim states that
the range constructor discards later elements comparing equal to an
already-inserted one.  `CompareFactory` adapts the less-than comparator as
`less(value, other) ? -1 : +1`, which never yields 0, so the zero branch of
`find_or_insert_impl` is unreachable during `assign_impl`: assigning two
elements with the equal key 5 inserts both (the second to the right of the
first), giving two nodes for one distinct key. -/
theorem C6_duplicate_keys_both_inserted :
    assign_impl (fun a b => decide (a.1 < b.1)) [((5, 0) : Int × Nat), (5, 1)] Tree.nil
      = Tree.node Tree.nil (5, 0) 0 (Tree.node Tree.nil (5, 1) 0 Tree.nil)
    ∧ (Tree.node Tree.nil ((5, 0) : Int × Nat) 0 (Tree.node Tree.nil (5, 1) 0 Tree.nil)).size = 2
    ∧ compareFactory_comp (fun a b => decide (a.1 < b.1)) ((5, 1) : Int × Nat) (5, 0) = 1 := by
  decide

/-- Claim C7 (code behaviour at the failing input): the claim states that
the container maintains a stored size counter.  The C++ class stores only
the `origin` link (no counter field, no `size()` member); the number of
reachable nodes — which a maintained counter would have to report — is
computed here by the specification-side `Tree.size`: after inserting one key
into the empty tree it is 1, while no stored counter exists in the code to
report it. -/
theorem C7_reachable_count_after_insert :
    (apply_ops [(compareByValue 1, some 1)] Tree.nil).size = 1
    ∧ (Tree.nil : Tree Int).size = 0 := by
  decide

/-- Claim C8: on a non-empty tree, decrementing `end()` yields an iterator
to the last (maximum) in-order node — in particular not `end()` — and
repeatedly decrementing from `end()` back to `begin()` visits exactly the
nodes of the forward walk from `begin()` to `end()` in reverse order. -/
theorem C8_backward_walk_reverses_forward {α : Type} (t : Tree α) (h : t ≠ Tree.nil) :
    (posVal (prev_in_order_impl (end_impl t)) = (inorder t).getLast?
      ∧ posVal (prev_in_order_impl (end_impl t)) ≠ none)
    ∧ walk_back t.size (end_impl t) = (walk t.size (begin_impl t)).reverse := by
  have hne : inorder t ≠ [] := by
    cases t with
    | nil => exact absurd rfl h
    | node l v b r => simp [inorder]
  refine ⟨⟨posVal_prev_end t, ?_⟩, ?_⟩
  · rw [posVal_prev_end t]
    intro hcon
    exact hne (List.getLast?_eq_none_iff.mp hcon)
  · rw [walk_begin, walk_back_end]

theorem C8_witness :
    (Tree.node (Tree.node Tree.nil (1 : Int) 0 Tree.nil) 2 0 (Tree.node Tree.nil 3 0 Tree.nil)
        ≠ Tree.nil)
    ∧ ((posVal (prev_in_order_impl (end_impl (Tree.node (Tree.node Tree.nil (1 : Int) 0 Tree.nil)
            2 0 (Tree.node Tree.nil 3 0 Tree.nil)))) =
          (inorder (Tree.node (Tree.node Tree.nil (1 : Int) 0 Tree.nil) 2 0
            (Tree.node Tree.nil 3 0 Tree.nil))).getLast?
        ∧ posVal (prev_in_order_impl (end_impl (Tree.node (Tree.node Tree.nil (1 : Int) 0 Tree.nil)
            2 0 (Tree.node Tree.nil 3 0 Tree.nil)))) ≠ none)
      ∧ walk_back (Tree.node (Tree.node Tree.nil (1 : Int) 0 Tree.nil) 2 0
            (Tree.node Tree.nil 3 0 Tree.nil)).size
          (end_impl (Tree.node (Tree.node Tree.nil (1 : Int) 0 Tree.nil) 2 0
            (Tree.node Tree.nil 3 0 Tree.nil))) =
        (walk (Tree.node (Tree.node Tree.nil (1 : Int) 0 Tree.nil) 2 0
            (Tree.node Tree.nil 3 0 Tree.nil)).size
          (begin_impl (Tree.node (Tree.node Tree.nil (1 : Int) 0 Tree.nil) 2 0
            (Tree.node Tree.nil 3 0 Tree.nil)))).reverse) :=
  ⟨by decide, C8_backward_walk_reverses_forward _ (by decide)⟩

/-- Claim C9: incrementing an iterator at `end()` (the sentinel) any number
of times leaves it at `end()`: `next_in_order_impl` is the identity on the
sentinel. -/
theorem C9_increment_at_end_stays_at_end {α : Type} (t : Tree α) (n : Nat) :
    applyN next_in_order_impl n (end_impl t) = end_impl t := by
  induction n with
  | zero => rfl
  | succ n ih => simpa [applyN, next_in_order_impl, end_impl] using ih

/-- Claim C10: a default-constructed (null) iterator stays null under any
number of increments or decrements: the null guards of the traversal
functions return the null input unchanged. -/
theorem C10_null_iterator_stays_null {α : Type} (n m : Nat) :
    applyN (@next_in_order_opt α) n none = none
    ∧ applyN (@prev_in_order_opt α) m none = none := by
  constructor
  · induction n with
    | zero => rfl
    | succ n ih => simpa [applyN, next_in_order_opt] using ih
  · induction m with
    | zero => rfl
    | succ m ih => simpa [applyN, prev_in_order_opt] using ih

end EtlAvl
